import Mathlib

/-!
Shallow embedding of `scripts/fetch_arxiv.py` (repository `llm-agent-feed`).

The program normalizes arXiv Atom entries into records, filters them to the
previous UTC day, merges them into a persisted JSON history deduplicated by
`id`, sorts descending by `(date, fetched_at)` and truncates to `KEEP_MAX`.

Python dicts are insertion ordered; the `by_id` dict of `merge_and_dedupe`
and the `uniq` dict of `main` are embedded as association lists where
updating an existing key keeps its position and inserting a fresh key
appends at the end, exactly the CPython semantics.
-/

namespace ArxivFeed

/-- One normalized paper record, the dict built by `parse_atom`.  Every key
is always present there, so the fields are total; `id` can be `None` or
missing in principle and is guarded everywhere by Python truthiness
(`e.get('id')`), so the empty string models an absent/None id. -/
structure Record where
  id : String
  title : String
  date : String
  tags : List String
  authors : List String
  institution : String
  link : String
  abstract : String
  fetched_at : String
deriving DecidableEq, Repr

/-- Python whitespace (the ASCII part relevant to this data):
space, tab, newline, carriage return, vertical tab, form feed. -/
def pyIsSpace (c : Char) : Bool :=
  c = ' ' || c = '\t' || c = '\n' || c = '\r' || c = '\x0b' || c = '\x0c'

/-- Python `s.strip()`: remove leading and trailing whitespace. -/
def pyStrip (s : String) : String :=
  String.mk ((((s.data.dropWhile pyIsSpace).reverse.dropWhile pyIsSpace).reverse))

/-- Python `s.replace('Z', '+00:00')`: every occurrence of the
one-character pattern is replaced. -/
def pyReplaceZ (s : String) : String :=
  String.mk (s.data.foldr (fun c acc => if c = 'Z' then '+' :: '0' :: '0' :: ':' :: '0' :: '0' :: acc else c :: acc) [])

/-- Python `s.split('.')[-1]`: the segment after the last dot (the whole
string when there is no dot). -/
def afterLastDot (l : List Char) : List Char :=
  l.foldl (fun acc c => if c = '.' then [] else acc ++ [c]) []

/-- Python string `<`: lexicographic on code points.  Structurally
recursive so that it evaluates inside the kernel. -/
def charsLt : List Char → List Char → Bool
  | _, [] => false
  | [], _ :: _ => true
  | a :: as, b :: bs => a < b || (a = b && charsLt as bs)

/-- Python `a > b` on strings, written as `strLt b a`. -/
def strLt (a b : String) : Bool := charsLt a.data b.data

/-- Python `a <= b` on strings: `¬ b < a`, the order being total. -/
def strLe (a b : String) : Bool := !(charsLt b.data a.data)

/-- Lookup in an insertion-ordered association list (`by_id[k]` / `k in by_id`). -/
def lookupId : List (String × Record) → String → Option Record
  | [], _ => none
  | (k, v) :: rest, k' => if k = k' then some v else lookupId rest k'

/-- `by_id[k] = v` on an insertion-ordered dict: an existing key keeps its
position and only its value changes; a fresh key is appended at the end. -/
def setId : List (String × Record) → String → Record → List (String × Record)
  | [], k, v => [(k, v)]
  | (k', v') :: rest, k, v =>
    if k' = k then (k', v) :: rest else (k', v') :: setId rest k v

/-- One entry of the dict comprehension
`by_id = {e['id']: e for e in old if e.get('id')}` (fetch_arxiv.py line 160). -/
def buildStep (m : List (String × Record)) (e : Record) : List (String × Record) :=
  if e.id = "" then m else setId m e.id e

/-- `by_id = {e['id']: e for e in old if e.get('id')}` (fetch_arxiv.py line 160). -/
def buildById (old : List Record) : List (String × Record) :=
  old.foldl buildStep []

/-- One iteration of the `for e in new` loop of `merge_and_dedupe`
(lines 161-172): skip records without id; on an id hit replace only when
`e.get('fetched_at','') > by_id[e['id']].get('fetched_at','')`; otherwise
insert.  String comparison in Python never raises, so the defensive
`except: replace unconditionally` branch is dead code here. -/
def mergeStep (m : List (String × Record)) (e : Record) : List (String × Record) :=
  if e.id = "" then m
  else
    match lookupId m e.id with
    | some cur => if strLt cur.fetched_at e.fetched_at then setId m e.id e else m
    | none => setId m e.id e

/-- The `by_id` dict after the whole `for e in new` loop. -/
def mergedById (old new : List Record) : List (String × Record) :=
  new.foldl mergeStep (buildById old)

/-- `merged = list(by_id.values())` (line 173). -/
def mergedValues (old new : List Record) : List Record :=
  (mergedById old new).map Prod.snd

/-- `sort_key(x) = (x.get('date',''), x.get('fetched_at',''))` (lines 175-176). -/
def sortKey (x : Record) : String × String := (x.date, x.fetched_at)

/-- Lexicographic `≤` on pairs of strings: Python tuple comparison. -/
def pairLe (p q : String × String) : Bool :=
  strLt p.1 q.1 || (p.1 = q.1 && strLe p.2 q.2)

/-- `keyGe a b` holds when `a` may be placed before `b` by
`merged.sort(key=sort_key, reverse=True)` (line 177): descending in the
key, and a stable sort keeps ties in encounter order, so ties satisfy the
relation in both directions. -/
def keyGe (a b : Record) : Prop := pairLe (sortKey b) (sortKey a) = true

instance : DecidableRel keyGe := fun _ _ =>
  inferInstanceAs (Decidable (_ = true))

/-- `KEEP_MAX = 600` (line 27). -/
def KEEP_MAX : Nat := 600

/-- `merge_and_dedupe` (lines 158-178): dedupe by id preferring newer
`fetched_at`, sort descending by `(date, fetched_at)` with a stable sort,
keep the first `KEEP_MAX`. -/
def merge_and_dedupe (old new : List Record) : List Record :=
  (List.insertionSort keyGe (mergedValues old new)).take KEEP_MAX

/-- The records dropped by the `[:KEEP_MAX]` truncation of line 178. -/
def droppedRecords (old new : List Record) : List Record :=
  (List.insertionSort keyGe (mergedValues old new)).drop KEEP_MAX

/-- One iteration of the intra-run dedupe loop of `main` (lines 193-195):
`if e.get('id') and e['id'] not in uniq: uniq[e['id']] = e`. -/
def uniqStep (m : List (String × Record)) (e : Record) : List (String × Record) :=
  if e.id = "" then m
  else
    match lookupId m e.id with
    | some _ => m
    | none => setId m e.id e

/-- Intra-run dedupe of `main` (lines 192-196): first occurrence of each
non-empty id wins, insertion order kept. -/
def uniqById (l : List Record) : List Record :=
  (l.foldl uniqStep []).map Prod.snd

/-! ## Date parsing

Model of `datetime.fromisoformat(s).date()` on the dashed extended ISO
format this script manipulates: `YYYY-MM-DD`, optionally followed by one
separator character and a valid time-of-day with optional fractional
seconds and optional numeric UTC offset.  The result is the calendar date
`(year, month, day)`; parse failure (an exception in Python) is `none`. -/

def digitVal (c : Char) : Nat := c.toNat - '0'.toNat

def isLeapYear (y : Nat) : Bool := y % 4 = 0 && (y % 100 != 0 || y % 400 = 0)

def daysInMonth (y m : Nat) : Nat :=
  if m = 2 then (if isLeapYear y then 29 else 28)
  else if m = 4 || m = 6 || m = 9 || m = 11 then 30
  else 31

/-- Read two decimal digits, returning their value and the rest. -/
def twoDigits : List Char → Option (Nat × List Char)
  | c1 :: c2 :: rest =>
    if c1.isDigit && c2.isDigit then some (10 * digitVal c1 + digitVal c2, rest) else none
  | _ => none

/-- A numeric UTC offset body `HH:MM` after the sign. -/
def validOffsetTail (l : List Char) : Bool :=
  match twoDigits l with
  | some (hh, ':' :: rest) =>
    (match twoDigits rest with
     | some (mm, []) => decide (hh < 24) && decide (mm < 60)
     | _ => false)
  | _ => false

/-- An optional `±HH:MM` offset closing the string. -/
def validOffset : List Char → Bool
  | [] => true
  | '+' :: rest => validOffsetTail rest
  | '-' :: rest => validOffsetTail rest
  | _ => false

/-- A time of day `HH[:MM[:SS[.ffff]]]` followed by an optional offset. -/
def validTime (l : List Char) : Bool :=
  match twoDigits l with
  | none => false
  | some (hh, rest) =>
    decide (hh < 24) &&
    (match rest with
     | ':' :: r1 =>
       (match twoDigits r1 with
        | none => false
        | some (mm, r2) =>
          decide (mm < 60) &&
          (match r2 with
           | ':' :: r3 =>
             (match twoDigits r3 with
              | none => false
              | some (ss, r4) =>
                decide (ss < 60) &&
                (match r4 with
                 | '.' :: r5 =>
                   decide (r5.takeWhile Char.isDigit ≠ []) &&
                     validOffset (r5.dropWhile Char.isDigit)
                 | _ => validOffset r4))
           | _ => validOffset r2))
     | _ => validOffset rest)

/-- The calendar-date part of `datetime.fromisoformat`: four year digits,
dash, two month digits, dash, two day digits, validated as a real
(proleptic Gregorian, year ≥ 1) date; then either the end of the string or
one separator character and a valid time. -/
def pyDateOfChars : List Char → Option (Nat × Nat × Nat)
  | y1 :: y2 :: y3 :: y4 :: '-' :: m1 :: m2 :: '-' :: d1 :: d2 :: rest =>
    if y1.isDigit && y2.isDigit && y3.isDigit && y4.isDigit && m1.isDigit && m2.isDigit
        && d1.isDigit && d2.isDigit then
      let y := 1000 * digitVal y1 + 100 * digitVal y2 + 10 * digitVal y3 + digitVal y4
      let m := 10 * digitVal m1 + digitVal m2
      let d := 10 * digitVal d1 + digitVal d2
      if decide (1 ≤ y) && decide (1 ≤ m) && decide (m ≤ 12) && decide (1 ≤ d)
          && decide (d ≤ daysInMonth y m) then
        match rest with
        | [] => some (y, m, d)
        | _ :: timeChars => if validTime timeChars then some (y, m, d) else none
      else none
    else none
  | _ => none

/-- `datetime.fromisoformat(s).date()` as an `Option`. -/
def fromisoDate (s : String) : Option (Nat × Nat × Nat) := pyDateOfChars s.data

/-! ## Date filter (`main`, lines 203-217) -/

/-- The body of the `for e in new_list` filtering loop of `main`: an empty
`date` is skipped at once (`if not pub_str: continue`); a non-empty `date`
is parsed, falling back to `fetched_at` (with `Z` replaced by `+00:00`)
when the parse raises; the record is kept when the parsed date equals
`yesterday`. -/
def keepForDate (yesterday : Nat × Nat × Nat) (e : Record) : Bool :=
  if e.date = "" then false
  else
    match fromisoDate e.date with
    | some d => decide (d = yesterday)
    | none =>
      match fromisoDate (pyReplaceZ e.fetched_at) with
      | some d => decide (d = yesterday)
      | none => false

/-- `new_list_filtered` of `main`. -/
def dateFilter (yesterday : Nat × Nat × Nat) (l : List Record) : List Record :=
  l.filter (keepForDate yesterday)

/-! ## Tag extraction (`parse_atom`, lines 103-118) -/

/-- The first tags loop: for each truthy category code append the code, and
when it contains a dot also `c.split('.')[-1]`, the part after the last
dot. -/
def rawTags (cats : List String) : List String :=
  cats.foldl (fun tags c =>
    if c = "" then tags
    else (tags ++ [c]) ++
      (if c.data.contains '.' then [String.mk (afterLastDot c.data)] else [])) []

/-- One step of the dedupe loop: `tt = t.strip(); if tt and tt not in seen`.
The accumulator is `(seen, tags_clean)`. -/
def dedupeStep (acc : List String × List String) (t : String) : List String × List String :=
  let tt := pyStrip t
  if tt ≠ "" ∧ tt ∉ acc.1 then (tt :: acc.1, acc.2 ++ [tt]) else acc

/-- `tags_clean`: dedupe stripped tags preserving first-seen order. -/
def dedupeTags (tags : List String) : List String :=
  (tags.foldl dedupeStep ([], [])).2

/-- The whole `tags` computation of `parse_atom` for a category list. -/
def extractTags (cats : List String) : List String := dedupeTags (rawTags cats)

/-! ## Persistence load (`load_existing`, lines 144-151) -/

/-- The state of the store file as `load_existing` can observe it:
absent (`os.path.exists` is false), present but failing to open, read or
deserialize (any exception), or readable with a list of records.  The
JSON (de)serialization of a record list itself is abstracted. -/
inductive StoreFile where
  | absent
  | unreadable
  | readable (entries : List Record)

/-- `load_existing`: `[]` when the file is missing, `[]` when reading or
parsing raises, otherwise the parsed collection.  Total, hence it never
raises. -/
def load_existing : StoreFile → List Record
  | .absent => []
  | .unreadable => []
  | .readable l => l

/-! ## Order facts about the string comparison -/

theorem charsLt_irrefl : ∀ l : List Char, charsLt l l = false
  | [] => rfl
  | a :: as => by simp [charsLt, charsLt_irrefl as]

theorem charsLt_asymm : ∀ {a b : List Char}, charsLt a b = true → charsLt b a = false
  | _, [], h => by simp [charsLt] at h
  | [], _ :: _, _ => rfl
  | x :: xs, y :: ys, h => by
    simp only [charsLt, Bool.or_eq_true, Bool.and_eq_true, decide_eq_true_eq] at h
    simp only [charsLt, Bool.or_eq_false_iff, Bool.and_eq_false_iff,
      decide_eq_false_iff_not]
    rcases h with h | ⟨rfl, h⟩
    · exact ⟨asymm h, .inl (ne_of_gt h)⟩
    · exact ⟨lt_irrefl x, .inr (charsLt_asymm h)⟩

theorem charsLt_trans : ∀ {a b c : List Char},
    charsLt a b = true → charsLt b c = true → charsLt a c = true
  | _, [], _, h, _ => by simp [charsLt] at h
  | _, _ :: _, [], _, h => by simp [charsLt] at h
  | [], _ :: _, _ :: _, _, _ => rfl
  | x :: xs, y :: ys, z :: zs, h1, h2 => by
    simp only [charsLt, Bool.or_eq_true, Bool.and_eq_true, decide_eq_true_eq] at h1 h2 ⊢
    rcases h1 with h1 | ⟨rfl, h1⟩ <;> rcases h2 with h2 | ⟨rfl, h2⟩
    · exact .inl (lt_trans h1 h2)
    · exact .inl h1
    · exact .inl h2
    · exact .inr ⟨rfl, charsLt_trans h1 h2⟩

theorem charsLt_total : ∀ {a b : List Char},
    charsLt a b = false → charsLt b a = false → a = b
  | [], [], _, _ => rfl
  | [], _ :: _, h, _ => by simp [charsLt] at h
  | _ :: _, [], _, h => by simp [charsLt] at h
  | x :: xs, y :: ys, h1, h2 => by
    simp only [charsLt, Bool.or_eq_false_iff, Bool.and_eq_false_iff,
      decide_eq_false_iff_not] at h1 h2
    have hxy : x = y := le_antisymm (not_lt.mp h2.1) (not_lt.mp h1.1)
    subst hxy
    rcases h1.2 with h | h
    · exact absurd rfl h
    · rcases h2.2 with h' | h'
      · exact absurd rfl h'
      · exact congrArg (x :: ·) (charsLt_total h h')

/-- `¬ a < b` and `¬ b < c` give `¬ a < c` (the order is total). -/
theorem charsLt_notLt_trans {a b c : List Char} (h1 : charsLt a b = false)
    (h2 : charsLt b c = false) : charsLt a c = false := by
  cases hac : charsLt a c with
  | false => rfl
  | true =>
    cases hba : charsLt b a with
    | false => cases charsLt_total h1 hba; exact absurd hac (by simp [h2])
    | true => exact absurd (charsLt_trans hba hac) (by simp [h2])

theorem strLt_irrefl (a : String) : strLt a a = false := charsLt_irrefl a.data

theorem strLt_asymm {a b : String} (h : strLt a b = true) : strLt b a = false :=
  charsLt_asymm h

theorem strLt_notLt_trans {a b c : String} (h1 : strLt a b = false)
    (h2 : strLt b c = false) : strLt a c = false := charsLt_notLt_trans h1 h2

theorem string_eq_of_not_lt {a b : String} (h1 : strLt a b = false)
    (h2 : strLt b a = false) : a = b := by
  cases a; cases b
  exact congrArg String.mk (charsLt_total h1 h2)

theorem pairLe_total (p q : String × String) : pairLe p q = true ∨ pairLe q p = true := by
  simp only [pairLe, strLe, Bool.or_eq_true, Bool.and_eq_true, decide_eq_true_eq,
    Bool.not_eq_true']
  cases h1 : strLt p.1 q.1 with
  | true => exact .inl (.inl rfl)
  | false =>
    cases h2 : strLt q.1 p.1 with
    | true => exact .inr (.inl rfl)
    | false =>
      have he : p.1 = q.1 := string_eq_of_not_lt h1 h2
      cases h3 : charsLt p.2.data q.2.data with
      | false => exact .inr (.inr ⟨he.symm, rfl⟩)
      | true => exact .inl (.inr ⟨he, charsLt_asymm h3⟩)

theorem pairLe_trans {p q r : String × String} (h1 : pairLe p q = true)
    (h2 : pairLe q r = true) : pairLe p r = true := by
  simp only [pairLe, strLe, Bool.or_eq_true, Bool.and_eq_true, decide_eq_true_eq,
    Bool.not_eq_true'] at h1 h2 ⊢
  rcases h1 with h1 | ⟨he1, h1⟩ <;> rcases h2 with h2 | ⟨he2, h2⟩
  · exact .inl (charsLt_trans h1 h2)
  · exact .inl (he2 ▸ h1)
  · exact .inl (he1 ▸ h2)
  · exact .inr ⟨he1.trans he2, charsLt_notLt_trans h2 h1⟩

instance : IsTotal Record keyGe :=
  ⟨fun a b => pairLe_total (sortKey b) (sortKey a)⟩

instance : IsTrans Record keyGe :=
  ⟨fun _ _ _ h1 h2 => pairLe_trans h2 h1⟩

/-! ## Association-list lemmas -/

theorem lookupId_setId_self : ∀ (m : List (String × Record)) (k : String) (v : Record),
    lookupId (setId m k v) k = some v
  | [], k, v => by simp [setId, lookupId]
  | (a, b) :: rest, k, v => by
    by_cases h : a = k
    · simp [setId, lookupId, h]
    · simp [setId, lookupId, h, lookupId_setId_self rest k v]

theorem lookupId_setId_ne : ∀ (m : List (String × Record)) {k k' : String} (v : Record),
    k' ≠ k → lookupId (setId m k v) k' = lookupId m k'
  | [], k, k', v, h => by simp [setId, lookupId, Ne.symm h]
  | (a, b) :: rest, k, k', v, h => by
    by_cases ha : a = k
    · subst ha
      simp [setId, lookupId, Ne.symm h]
    · simp [setId, lookupId, ha, lookupId_setId_ne rest v h]

theorem lookupId_eq_none : ∀ {m : List (String × Record)} {k : String},
    lookupId m k = none ↔ k ∉ m.map Prod.fst
  | [], k => by simp [lookupId]
  | (a, b) :: rest, k => by
    by_cases h : a = k
    · simp [lookupId, h]
    · simp [lookupId, h, Ne.symm h, lookupId_eq_none (m := rest)]

theorem setId_of_none : ∀ {m : List (String × Record)} {k : String} (v : Record),
    lookupId m k = none → setId m k v = m ++ [(k, v)]
  | [], k, v, _ => rfl
  | (a, b) :: rest, k, v, h => by
    simp only [lookupId] at h
    rcases ha : (a = k : Bool) with _ | _
    · have ha' : a ≠ k := by simpa using ha
      rw [if_neg ha'] at h
      simp [setId, ha', setId_of_none v h]
    · have ha' : a = k := by simpa using ha
      rw [if_pos ha'] at h
      cases h

theorem mem_setId : ∀ {m : List (String × Record)} {k : String} {v : Record}
    {p : String × Record}, p ∈ setId m k v → p ∈ m ∨ p = (k, v)
  | [], k, v, p, h => by simpa [setId] using h
  | (a, b) :: rest, k, v, p, h => by
    by_cases ha : a = k
    · simp only [setId, if_pos ha] at h
      rcases List.mem_cons.mp h with rfl | h'
      · exact .inr (by rw [ha])
      · exact .inl (.tail _ h')
    · simp only [setId, if_neg ha] at h
      rcases List.mem_cons.mp h with rfl | h'
      · exact .inl (.head _)
      · rcases mem_setId h' with h'' | h''
        · exact .inl (.tail _ h'')
        · exact .inr h''

theorem map_fst_setId : ∀ (m : List (String × Record)) (k : String) (v : Record),
    (setId m k v).map Prod.fst =
      if k ∈ m.map Prod.fst then m.map Prod.fst else m.map Prod.fst ++ [k]
  | [], k, v => by simp [setId]
  | (a, b) :: rest, k, v => by
    by_cases ha : a = k
    · simp [setId, ha]
    · simp only [setId, if_neg ha, List.map_cons, map_fst_setId rest k v,
        List.mem_cons, Ne.symm ha, false_or]
      by_cases hk : k ∈ rest.map Prod.fst <;> simp [hk]

/-- The well-formedness of the `by_id` dicts: keys are the non-empty ids of
their values, and keys are pairwise distinct. -/
def GoodMap (m : List (String × Record)) : Prop :=
  (∀ p ∈ m, p.1 ≠ "" ∧ p.2.id = p.1) ∧ (m.map Prod.fst).Nodup

theorem goodMap_setId {m : List (String × Record)} {k : String} {v : Record}
    (hm : GoodMap m) (hk : k ≠ "") (hv : v.id = k) : GoodMap (setId m k v) := by
  constructor
  · intro p hp
    rcases mem_setId hp with h | rfl
    · exact hm.1 p h
    · exact ⟨hk, hv⟩
  · rw [map_fst_setId]
    split
    · exact hm.2
    · next h => simp [List.nodup_append, hm.2, h]

theorem goodMap_buildStep {m : List (String × Record)} {e : Record} (hm : GoodMap m) :
    GoodMap (buildStep m e) := by
  unfold buildStep
  split
  · exact hm
  · next h => exact goodMap_setId hm h rfl

theorem goodMap_mergeStep {m : List (String × Record)} {e : Record} (hm : GoodMap m) :
    GoodMap (mergeStep m e) := by
  unfold mergeStep
  split
  · exact hm
  · next h =>
    cases lookupId m e.id with
    | none => exact goodMap_setId hm h rfl
    | some cur =>
      simp only
      split
      · exact goodMap_setId hm h rfl
      · exact hm

theorem goodMap_uniqStep {m : List (String × Record)} {e : Record} (hm : GoodMap m) :
    GoodMap (uniqStep m e) := by
  unfold uniqStep
  split
  · exact hm
  · next h =>
    cases lookupId m e.id with
    | none => exact goodMap_setId hm h rfl
    | some cur => exact hm

theorem goodMap_foldl_buildStep : ∀ (l : List Record) (m), GoodMap m →
    GoodMap (l.foldl buildStep m)
  | [], _, h => h
  | _ :: l, _, h => goodMap_foldl_buildStep l _ (goodMap_buildStep h)

theorem goodMap_foldl_mergeStep : ∀ (l : List Record) (m), GoodMap m →
    GoodMap (l.foldl mergeStep m)
  | [], _, h => h
  | _ :: l, _, h => goodMap_foldl_mergeStep l _ (goodMap_mergeStep h)

theorem goodMap_foldl_uniqStep : ∀ (l : List Record) (m), GoodMap m →
    GoodMap (l.foldl uniqStep m)
  | [], _, h => h
  | _ :: l, _, h => goodMap_foldl_uniqStep l _ (goodMap_uniqStep h)

theorem goodMap_nil : GoodMap [] := ⟨by simp, by simp⟩

theorem goodMap_buildById (old : List Record) : GoodMap (buildById old) :=
  goodMap_foldl_buildStep old [] goodMap_nil

theorem goodMap_mergedById (old new : List Record) : GoodMap (mergedById old new) :=
  goodMap_foldl_mergeStep new _ (goodMap_buildById old)

theorem lookupId_mem : ∀ {m : List (String × Record)} {k : String} {v : Record},
    lookupId m k = some v → (k, v) ∈ m
  | [], k, v, h => by simp [lookupId] at h
  | (a, b) :: rest, k, v, h => by
    simp only [lookupId] at h
    split at h
    · next ha => cases h; exact ha ▸ .head _
    · exact .tail _ (lookupId_mem h)

theorem map_id_map_snd {m : List (String × Record)} (h : ∀ p ∈ m, p.2.id = p.1) :
    (m.map Prod.snd).map Record.id = m.map Prod.fst := by
  rw [List.map_map]
  exact List.map_congr_left fun p hp => h p hp

theorem lookupId_append_of_none {m₁ : List (String × Record)}
    (m₂ : List (String × Record)) {k : String} (h : lookupId m₁ k = none) :
    lookupId (m₁ ++ m₂) k = lookupId m₂ k := by
  induction m₁ with
  | nil => rfl
  | cons p rest ih =>
    obtain ⟨a, b⟩ := p
    simp only [lookupId] at h ⊢
    split at h
    · cases h
    · next ha => rw [if_neg ha]; exact ih h

/-! ## Folding fresh records appends them in order -/

theorem foldl_fresh_append (step : List (String × Record) → Record → List (String × Record))
    (hstep : ∀ m e, e.id ≠ "" → lookupId m e.id = none → step m e = m ++ [(e.id, e)]) :
    ∀ (l : List Record) (m), (∀ e ∈ l, e.id ≠ "") → (l.map Record.id).Nodup →
      (∀ e ∈ l, lookupId m e.id = none) →
      l.foldl step m = m ++ l.map (fun e => (e.id, e))
  | [], m, _, _, _ => by simp
  | e :: l, m, hne, hnd, hnone => by
    have hstep1 : step m e = m ++ [(e.id, e)] :=
      hstep m e (hne e (.head _)) (hnone e (.head _))
    have hnd' : e.id ∉ l.map Record.id ∧ (l.map Record.id).Nodup := by
      rw [List.map_cons] at hnd
      exact List.nodup_cons.mp hnd
    have hrest : ∀ e' ∈ l, lookupId (m ++ [(e.id, e)]) e'.id = none := by
      intro e' he'
      rw [lookupId_append_of_none _ (hnone e' (.tail _ he'))]
      have : e.id ≠ e'.id := fun h => hnd'.1 (h ▸ List.mem_map_of_mem Record.id he')
      simp [lookupId, this]
    rw [List.foldl_cons, hstep1,
      foldl_fresh_append step hstep l _ (fun x hx => hne x (.tail _ hx)) hnd'.2 hrest]
    simp

theorem buildById_of_nodup (l : List Record) (h1 : ∀ e ∈ l, e.id ≠ "")
    (h2 : (l.map Record.id).Nodup) : buildById l = l.map (fun e => (e.id, e)) :=
  foldl_fresh_append buildStep
    (fun m e he hn => by simp [buildStep, he, setId_of_none e hn])
    l [] h1 h2 (fun _ _ => rfl)

theorem foldl_mergeStep_of_fresh (l : List Record) (m : List (String × Record))
    (h1 : ∀ e ∈ l, e.id ≠ "") (h2 : (l.map Record.id).Nodup)
    (h3 : ∀ e ∈ l, lookupId m e.id = none) :
    l.foldl mergeStep m = m ++ l.map (fun e => (e.id, e)) :=
  foldl_fresh_append mergeStep
    (fun m e he hn => by simp [mergeStep, he, hn, setId_of_none e hn])
    l m h1 h2 h3

/-- In the association list of a list of records with pairwise distinct
ids, lookup of a member's id finds that member. -/
theorem lookupId_map_pair : ∀ {l : List Record} {w : Record},
    (l.map Record.id).Nodup → w ∈ l →
    lookupId (l.map fun e => (e.id, e)) w.id = some w
  | x :: xs, w, hnd, hw => by
    have hnd' : x.id ∉ xs.map Record.id ∧ (xs.map Record.id).Nodup := by
      rw [List.map_cons] at hnd
      exact List.nodup_cons.mp hnd
    simp only [List.map_cons, lookupId]
    rcases List.mem_cons.mp hw with rfl | hw'
    · simp
    · have hne : x.id ≠ w.id := fun h => hnd'.1 (h ▸ List.mem_map_of_mem Record.id hw')
      rw [if_neg hne]
      exact lookupId_map_pair hnd'.2 hw'

theorem lookupId_map_pair_none : ∀ {l : List Record} {k : String},
    (∀ e ∈ l, e.id ≠ k) → lookupId (l.map fun e => (e.id, e)) k = none
  | [], _, _ => rfl
  | x :: xs, k, h => by
    simp only [List.map_cons, lookupId, if_neg (h x (.head _))]
    exact lookupId_map_pair_none fun e he => h e (.tail _ he)

/-! ## The merge never invents records -/

theorem mem_buildStep {m : List (String × Record)} {e : Record} {p : String × Record}
    (h : p ∈ buildStep m e) : p ∈ m ∨ p = (e.id, e) := by
  unfold buildStep at h
  split at h
  · exact .inl h
  · exact mem_setId h

theorem mem_mergeStep {m : List (String × Record)} {e : Record} {p : String × Record}
    (h : p ∈ mergeStep m e) : p ∈ m ∨ p = (e.id, e) := by
  unfold mergeStep at h
  split at h
  · exact .inl h
  · split at h
    · split at h
      · exact mem_setId h
      · exact .inl h
    · exact mem_setId h

theorem foldl_buildStep_sub : ∀ (l : List Record) (m) {p : String × Record},
    p ∈ l.foldl buildStep m → p ∈ m ∨ p.2 ∈ l
  | [], _, _, h => .inl h
  | e :: l, m, p, h => by
    rcases foldl_buildStep_sub l _ h with h' | h'
    · rcases mem_buildStep h' with h'' | rfl
      · exact .inl h''
      · exact .inr (.head _)
    · exact .inr (.tail _ h')

theorem foldl_mergeStep_sub : ∀ (l : List Record) (m) {p : String × Record},
    p ∈ l.foldl mergeStep m → p ∈ m ∨ p.2 ∈ l
  | [], _, _, h => .inl h
  | e :: l, m, p, h => by
    rcases foldl_mergeStep_sub l _ h with h' | h'
    · rcases mem_mergeStep h' with h'' | rfl
      · exact .inl h''
      · exact .inr (.head _)
    · exact .inr (.tail _ h')

/-! ## Conflict resolution: the existing record survives unless strictly older -/

theorem mergeStep_lookup_ne {m : List (String × Record)} {e : Record} {k : String}
    (h : e.id ≠ k) : lookupId (mergeStep m e) k = lookupId m k := by
  unfold mergeStep
  split
  · rfl
  · split
    · split
      · exact lookupId_setId_ne m e (Ne.symm h)
      · rfl
    · exact lookupId_setId_ne m e (Ne.symm h)

theorem mergeStep_lookup_keep {m : List (String × Record)} {k : String} {o : Record}
    (e : Record) (h : lookupId m k = some o)
    (hfa : e.id = k → strLt o.fetched_at e.fetched_at = false) :
    lookupId (mergeStep m e) k = some o := by
  by_cases hk : e.id = k
  · subst hk
    unfold mergeStep
    split
    · exact h
    · rw [h]
      simp only [hfa rfl, Bool.false_eq_true, if_false]
      exact h
  · rw [mergeStep_lookup_ne hk]; exact h

theorem foldl_mergeStep_lookup_keep : ∀ (l : List Record) (m) {k : String} {o : Record},
    lookupId m k = some o →
    (∀ e ∈ l, e.id = k → strLt o.fetched_at e.fetched_at = false) →
    lookupId (l.foldl mergeStep m) k = some o
  | [], _, _, _, h, _ => h
  | e :: l, _, _, _, h, hfa =>
    foldl_mergeStep_lookup_keep l _
      (mergeStep_lookup_keep e h (hfa e (.head _)))
      (fun e' he' => hfa e' (.tail _ he'))

/-- Along the merge fold, the value stored at a key never gets an older
`fetched_at`. -/
theorem foldl_mergeStep_mono : ∀ (l : List Record) (m) {k : String} {w : Record},
    lookupId m k = some w →
    ∃ w', lookupId (l.foldl mergeStep m) k = some w' ∧
      strLt w'.fetched_at w.fetched_at = false
  | [], _, _, w, h => ⟨w, h, strLt_irrefl _⟩
  | e :: l, m, k, w, h => by
    by_cases hk : e.id = k
    · subst hk
      have hstep : lookupId (mergeStep m e) e.id = some w ∨
          (lookupId (mergeStep m e) e.id = some e ∧
            strLt e.fetched_at w.fetched_at = false) := by
        cases hlt : strLt w.fetched_at e.fetched_at with
        | false => exact .inl (mergeStep_lookup_keep e h fun _ => hlt)
        | true =>
          by_cases hne : e.id = ""
          · left
            unfold mergeStep
            rw [if_pos hne]
            exact h
          · right
            refine ⟨?_, strLt_asymm hlt⟩
            unfold mergeStep
            rw [if_neg hne, h]
            show lookupId
              (if strLt w.fetched_at e.fetched_at = true then setId m e.id e else m)
              e.id = some e
            rw [hlt, if_pos rfl]
            exact lookupId_setId_self m e.id e
      rcases hstep with h' | ⟨h', hfa⟩
      · exact foldl_mergeStep_mono l _ h'
      · obtain ⟨w', hw', hfa'⟩ := foldl_mergeStep_mono l _ h'
        exact ⟨w', hw', strLt_notLt_trans hfa' hfa⟩
    · rw [List.foldl_cons]
      exact foldl_mergeStep_mono l _ (by rw [mergeStep_lookup_ne hk]; exact h)

/-- After merging, each incoming record with an id is dominated by the
stored value at its id. -/
theorem foldl_mergeStep_fa_ge : ∀ (l : List Record) (m) {e : Record}, e ∈ l → e.id ≠ "" →
    ∃ w, lookupId (l.foldl mergeStep m) e.id = some w ∧
      strLt w.fetched_at e.fetched_at = false
  | e' :: l, m, e, he, hne => by
    rcases List.mem_cons.mp he with rfl | he'
    · have hself : ∃ w0, lookupId (mergeStep m e) e.id = some w0 ∧
          strLt w0.fetched_at e.fetched_at = false := by
        unfold mergeStep
        rw [if_neg hne]
        cases hl : lookupId m e.id with
        | none => exact ⟨e, lookupId_setId_self m e.id e, strLt_irrefl _⟩
        | some cur =>
          cases hlt : strLt cur.fetched_at e.fetched_at with
          | false =>
            refine ⟨cur, ?_, hlt⟩
            show lookupId
              (if strLt cur.fetched_at e.fetched_at = true then setId m e.id e else m)
              e.id = some cur
            simp only [hlt]
            simpa using hl
          | true =>
            refine ⟨e, ?_, strLt_irrefl _⟩
            show lookupId
              (if strLt cur.fetched_at e.fetched_at = true then setId m e.id e else m)
              e.id = some e
            rw [hlt, if_pos rfl]
            exact lookupId_setId_self m e.id e
      obtain ⟨w0, hw0, hfa0⟩ := hself
      obtain ⟨w, hw, hfa⟩ := foldl_mergeStep_mono l _ hw0
      exact ⟨w, hw, strLt_notLt_trans hfa hfa0⟩
    · exact foldl_mergeStep_fa_ge l _ he' hne

/-- When every incoming record is already dominated in the map, the merge
fold is the identity. -/
theorem foldl_mergeStep_noop : ∀ (l : List Record) (m),
    (∀ e ∈ l, e.id ≠ "" →
      ∃ w, lookupId m e.id = some w ∧ strLt w.fetched_at e.fetched_at = false) →
    l.foldl mergeStep m = m
  | [], _, _ => rfl
  | e :: l, m, h => by
    have hstep : mergeStep m e = m := by
      unfold mergeStep
      split
      · rfl
      · next hne =>
        obtain ⟨w, hw, hfa⟩ := h e (.head _) hne
        rw [hw]
        simp [hfa]
    rw [List.foldl_cons, hstep]
    exact foldl_mergeStep_noop l m fun e' he' => h e' (.tail _ he')

/-! ## Sorting helpers -/

theorem pairwise_of_forall {α : Type} {R : α → α → Prop} (h : ∀ a b, R a b) :
    ∀ l : List α, l.Pairwise R
  | [] => .nil
  | a :: l => .cons (fun b _ => h a b) (pairwise_of_forall h l)

/-- Appending one element that is strictly last keeps it in front of the
descending insertion sort. -/
theorem insertionSort_append_single {α : Type} (r : α → α → Prop) [DecidableRel r] :
    ∀ (l : List α) (b : α), (∀ x ∈ l, ¬ r x b) →
      List.insertionSort r (l ++ [b]) = b :: List.insertionSort r l
  | [], _, _ => rfl
  | a :: l, b, h => by
    simp only [List.cons_append, List.insertionSort, List.append_eq]
    rw [insertionSort_append_single r l b fun x hx => h x (.tail _ hx),
      List.orderedInsert, if_neg (h a (.head _))]

/-! ## Invariants of the merged collection -/

theorem mergedValues_ids_nodup (old new : List Record) :
    ((mergedValues old new).map Record.id).Nodup := by
  have g := goodMap_mergedById old new
  rw [mergedValues, map_id_map_snd fun p hp => (g.1 p hp).2]
  exact g.2

theorem mergedValues_id_ne (old new : List Record) :
    ∀ e ∈ mergedValues old new, e.id ≠ "" := by
  intro e he
  obtain ⟨p, hp, rfl⟩ := List.mem_map.mp he
  have h := (goodMap_mergedById old new).1 p hp
  rw [h.2]
  exact h.1

theorem map_snd_map_pair (l : List Record) :
    (l.map fun e => (e.id, e)).map Prod.snd = l := by
  have hcomp : (Prod.snd ∘ fun e : Record => (e.id, e)) = id := rfl
  rw [List.map_map, hcomp, List.map_id]

/-- Re-merging `new` into any permutation `S` of the merged collection
changes nothing: every incoming record is already dominated there. -/
theorem remerge_values (old new S : List Record) (hperm : S.Perm (mergedValues old new)) :
    mergedValues S new = S := by
  have hnodup : (S.map Record.id).Nodup :=
    ((hperm.map Record.id).nodup_iff).mpr (mergedValues_ids_nodup old new)
  have hne : ∀ e ∈ S, e.id ≠ "" := fun e he =>
    mergedValues_id_ne old new e (hperm.mem_iff.mp he)
  have hbuild : buildById S = S.map fun e => (e.id, e) := buildById_of_nodup S hne hnodup
  have hnoop : new.foldl mergeStep (S.map fun e => (e.id, e)) = S.map fun e => (e.id, e) := by
    apply foldl_mergeStep_noop
    intro e he hid
    obtain ⟨w, hw, hfa⟩ := foldl_mergeStep_fa_ge new (buildById old) he hid
    have hmem : (e.id, w) ∈ mergedById old new := lookupId_mem hw
    have hwid : w.id = e.id := ((goodMap_mergedById old new).1 _ hmem).2
    have hwS : w ∈ S := hperm.mem_iff.mpr (List.mem_map_of_mem Prod.snd hmem)
    refine ⟨w, ?_, hfa⟩
    rw [← hwid]
    exact lookupId_map_pair hnodup hwS
  rw [mergedValues, mergedById, hbuild, hnoop, map_snd_map_pair]

/-! ## Concrete records for counterexamples and witnesses -/

def baseRec : Record := ⟨"", "", "", [], [], "", "", "", ""⟩

/-- A record fixing the three fields the merge inspects. -/
def mkRec (i d f : String) : Record :=
  { baseRec with id := i, date := d, fetched_at := f }

/-- Filler record number `n`: id of `n + 1` letters `a`, date `"b"`,
`fetched_at` `"0"`. -/
def exFiller (n : Nat) : Record := mkRec (String.mk (List.replicate (n + 1) 'a')) "b" "0"

/-- 600 distinct filler records, exactly the retention cap. -/
def exFillers : List Record := (List.range 600).map exFiller

/-- The record that gets truncated away: the smallest sort key. -/
def exBad : Record := mkRec "x" "a" "9"

def exOld : List Record := exFillers ++ [exBad]

/-- One incoming record: same id as `exBad`, older `fetched_at`, newest
date. -/
def exNew : List Record := [mkRec "x" "c" "5"]

theorem exFiller_id_ne_empty (n : Nat) : (exFiller n).id ≠ "" := by
  intro h
  have hd : List.replicate (n + 1) 'a' = [] := congrArg String.data h
  simp at hd

theorem exFiller_id_ne_x (n : Nat) : (exFiller n).id ≠ "x" := by
  intro h
  have hd : List.replicate (n + 1) 'a' = ['x'] := congrArg String.data h
  rw [List.replicate_succ] at hd
  have : 'a' = 'x' := (List.cons.injEq _ _ _ _ ▸ hd).1
  exact absurd this (by decide)

theorem exFillers_ids_nodup : (exFillers.map Record.id).Nodup := by
  rw [exFillers, List.map_map]
  apply List.Nodup.map
  · intro m n h
    have hlen : (List.replicate (m + 1) 'a').length = (List.replicate (n + 1) 'a').length :=
      congrArg (fun s : String => s.data.length) h
    rw [List.length_replicate, List.length_replicate] at hlen
    omega
  · exact List.nodup_range 600

theorem exFillers_id_ne_empty : ∀ e ∈ exFillers, e.id ≠ "" := by
  intro e he
  obtain ⟨n, _, rfl⟩ := List.mem_map.mp he
  exact exFiller_id_ne_empty n

theorem exFillers_id_ne_x : ∀ e ∈ exFillers, e.id ≠ "x" := by
  intro e he
  obtain ⟨n, _, rfl⟩ := List.mem_map.mp he
  exact exFiller_id_ne_x n

theorem exOld_id_ne_empty : ∀ e ∈ exOld, e.id ≠ "" := by
  intro e he
  rcases List.mem_append.mp he with h | h
  · exact exFillers_id_ne_empty e h
  · rcases List.mem_singleton.mp h with rfl
    decide

theorem exOld_ids_nodup : (exOld.map Record.id).Nodup := by
  rw [exOld, List.map_append]
  rw [List.nodup_append]
  refine ⟨exFillers_ids_nodup, by simp, ?_⟩
  intro k hk
  obtain ⟨e, he, rfl⟩ := List.mem_map.mp hk
  simp only [List.map_cons, List.map_nil, List.mem_singleton]
  exact exFillers_id_ne_x e he

theorem exFillers_length : exFillers.length = 600 := by
  simp [exFillers]

theorem keyGe_filler_filler (m n : Nat) : keyGe (exFiller m) (exFiller n) :=
  show pairLe ("b", "0") ("b", "0") = true from rfl

theorem keyGe_filler_bad (n : Nat) : keyGe (exFiller n) exBad :=
  show pairLe ("a", "9") ("b", "0") = true from rfl

theorem not_keyGe_filler_new (n : Nat) : ¬ keyGe (exFiller n) (mkRec "x" "c" "5") := by
  intro hk
  have h : pairLe ("c", "5") ("b", "0") = true := hk
  exact absurd h (by decide)

theorem exFillers_sorted : exFillers.Pairwise keyGe := by
  rw [exFillers, List.pairwise_map]
  exact pairwise_of_forall keyGe_filler_filler _

theorem exOld_sorted : exOld.Pairwise keyGe := by
  rw [exOld, List.pairwise_append]
  refine ⟨exFillers_sorted, by simp, ?_⟩
  intro x hx y hy
  obtain ⟨n, _, rfl⟩ := List.mem_map.mp hx
  rcases List.mem_singleton.mp hy with rfl
  exact keyGe_filler_bad n

/-- First merge: `exBad` wins its id conflict (its `fetched_at` `"9"` beats
the incoming `"5"`), so the merged values are exactly `exOld`. -/
theorem ex_first_values : mergedValues exOld exNew = exOld := by
  have hbuild : buildById exOld = exOld.map fun e => (e.id, e) :=
    buildById_of_nodup exOld exOld_id_ne_empty exOld_ids_nodup
  have hlk : lookupId (exOld.map fun e => (e.id, e)) "x" = some exBad := by
    rw [exOld, List.map_append]
    rw [lookupId_append_of_none _ (lookupId_map_pair_none exFillers_id_ne_x)]
    simp [lookupId, exBad, mkRec, baseRec]
  have hstep : mergeStep (exOld.map fun e => (e.id, e)) (mkRec "x" "c" "5")
      = exOld.map fun e => (e.id, e) := by
    unfold mergeStep
    rw [if_neg (by decide)]
    rw [show (mkRec "x" "c" "5").id = "x" from rfl, hlk]
    show (if strLt exBad.fetched_at (mkRec "x" "c" "5").fetched_at = true
      then setId (exOld.map fun e => (e.id, e)) "x" (mkRec "x" "c" "5")
      else exOld.map fun e => (e.id, e)) = exOld.map fun e => (e.id, e)
    rw [if_neg (by decide)]
  rw [mergedValues, mergedById, hbuild]
  simp only [exNew, List.foldl_cons, List.foldl_nil]
  rw [hstep, map_snd_map_pair]

/-- First merge result: the 600 fillers; `exBad` is truncated away. -/
theorem ex_first_merge : merge_and_dedupe exOld exNew = exFillers := by
  rw [merge_and_dedupe, ex_first_values,
    List.Sorted.insertionSort_eq (exOld_sorted : List.Sorted keyGe exOld)]
  rw [show KEEP_MAX = exFillers.length from exFillers_length.symm]
  simp only [exOld]
  exact List.take_left _ _

/-- Second merge: the incoming record's id is no longer present, so it is
inserted afresh. -/
theorem ex_second_values :
    mergedValues exFillers exNew = exFillers ++ [mkRec "x" "c" "5"] := by
  have hbuild : buildById exFillers = exFillers.map fun e => (e.id, e) :=
    buildById_of_nodup exFillers exFillers_id_ne_empty exFillers_ids_nodup
  have hlk : lookupId (exFillers.map fun e => (e.id, e)) "x" = none :=
    lookupId_map_pair_none exFillers_id_ne_x
  have hstep : mergeStep (exFillers.map fun e => (e.id, e)) (mkRec "x" "c" "5")
      = (exFillers.map fun e => (e.id, e)) ++ [("x", mkRec "x" "c" "5")] := by
    unfold mergeStep
    rw [if_neg (by decide)]
    rw [show (mkRec "x" "c" "5").id = "x" from rfl, hlk]
    exact setId_of_none _ hlk
  rw [mergedValues, mergedById, hbuild]
  simp only [exNew, List.foldl_cons, List.foldl_nil]
  rw [hstep, List.map_append, map_snd_map_pair]
  rfl

/-- Second merge result: the incoming record now sorts first and pushes a
filler out. -/
theorem ex_second_merge :
    merge_and_dedupe exFillers exNew = mkRec "x" "c" "5" :: exFillers.take 599 := by
  rw [merge_and_dedupe, ex_second_values]
  rw [insertionSort_append_single keyGe exFillers (mkRec "x" "c" "5") ?_]
  · rw [List.Sorted.insertionSort_eq (exFillers_sorted : List.Sorted keyGe exFillers)]
    rw [show KEEP_MAX = 599 + 1 from rfl]
    exact List.take_succ_cons
  · intro x hx
    obtain ⟨n, _, rfl⟩ := List.mem_map.mp hx
    exact not_keyGe_filler_new n

/-! ## Deduplication invariant for tags -/

theorem foldl_dedupeStep_nodup : ∀ (l : List String) (acc : List String × List String),
    (∀ t ∈ acc.2, t ∈ acc.1) → acc.2.Nodup → (l.foldl dedupeStep acc).2.Nodup
  | [], _, _, h2 => h2
  | t :: l, acc, h1, h2 => by
    rw [List.foldl_cons]
    by_cases hc : pyStrip t ≠ "" ∧ pyStrip t ∉ acc.1
    · have hstep : dedupeStep acc t = (pyStrip t :: acc.1, acc.2 ++ [pyStrip t]) := by
        unfold dedupeStep
        rw [if_pos hc]
      rw [hstep]
      apply foldl_dedupeStep_nodup l _ ?_ ?_
      · intro x hx
        rcases List.mem_append.mp hx with h | h
        · exact .tail _ (h1 x h)
        · rcases List.mem_singleton.mp h with rfl
          exact .head _
      · rw [List.nodup_append]
        refine ⟨h2, List.nodup_singleton _, ?_⟩
        intro x hx hx2
        rcases List.mem_singleton.mp hx2 with rfl
        exact hc.2 (h1 _ hx)
    · have hstep : dedupeStep acc t = acc := by
        unfold dedupeStep
        rw [if_neg hc]
      rw [hstep]
      exact foldl_dedupeStep_nodup l acc h1 h2

/-! ## Records used in witnesses and counterexamples -/

def c6old : Record := { baseRec with id := "a", title := "old", fetched_at := "t" }

def c6new : Record := { baseRec with id := "a", title := "new", fetched_at := "t" }

def c7a : Record := mkRec "a" "d" "1"

def c7b : Record := mkRec "a" "d" "2"

/-! ## The claims -/

/-- C3: when an incoming record shares an `id` with an existing record but
no incoming record with that id has a strictly greater `fetched_at` (plain
string comparison), the existing record is retained unchanged: it is still
the value stored at that id after the merge loop, and hence a member of
the merged collection. -/
theorem claim_C3 (old new : List Record) (k : String) (o : Record)
    (h : lookupId (buildById old) k = some o)
    (hok : ∀ e ∈ new, e.id = k → strLt o.fetched_at e.fetched_at = false) :
    lookupId (mergedById old new) k = some o ∧ o ∈ mergedValues old new := by
  have h1 := foldl_mergeStep_lookup_keep new (buildById old) h hok
  exact ⟨h1, List.mem_map_of_mem Prod.snd (lookupId_mem h1)⟩

/-- Witness for C3: an incoming record with the same id and an older
`fetched_at` does not displace the existing record. -/
theorem claim_C3_witness :
    lookupId (buildById [mkRec "a" "d1" "2"]) "a" = some (mkRec "a" "d1" "2") ∧
    (∀ e ∈ [mkRec "a" "d2" "1"], e.id = "a" →
      strLt (mkRec "a" "d1" "2").fetched_at e.fetched_at = false) ∧
    lookupId (mergedById [mkRec "a" "d1" "2"] [mkRec "a" "d2" "1"]) "a"
      = some (mkRec "a" "d1" "2") ∧
    mkRec "a" "d1" "2" ∈ mergedValues [mkRec "a" "d1" "2"] [mkRec "a" "d2" "1"] :=
  ⟨by decide, by decide,
    claim_C3 [mkRec "a" "d1" "2"] [mkRec "a" "d2" "1"] "a" (mkRec "a" "d1" "2")
      (by decide) (by decide)⟩

/-- C4: the merged collection never exceeds the retention cap of 600, the
kept records followed by the dropped records are exactly the sorted merged
set, and every dropped record has a `(date, fetched_at)` key less than or
equal to that of every kept record. -/
theorem claim_C4 (old new : List Record) :
    (merge_and_dedupe old new).length ≤ 600 ∧
    merge_and_dedupe old new ++ droppedRecords old new
      = List.insertionSort keyGe (mergedValues old new) ∧
    ((droppedRecords old new).all fun y =>
      (merge_and_dedupe old new).all fun x => pairLe (sortKey y) (sortKey x)) = true := by
  refine ⟨List.length_take_le _ _, List.take_append_drop _ _, ?_⟩
  have hs : List.Pairwise keyGe (List.insertionSort keyGe (mergedValues old new)) :=
    List.sorted_insertionSort keyGe (mergedValues old new)
  rw [← List.take_append_drop KEEP_MAX (List.insertionSort keyGe (mergedValues old new))]
    at hs
  have hcross := (List.pairwise_append.mp hs).2.2
  rw [List.all_eq_true]
  intro y hy
  rw [List.all_eq_true]
  intro x hx
  exact hcross x hx y hy

/-- C5: the merged collection is sorted descending by the pair
`(date, fetched_at)`, both compared as plain strings: each record's key is
greater than or equal to the key of every later record. -/
theorem claim_C5 (old new : List Record) : List.Sorted keyGe (merge_and_dedupe old new) :=
  List.Pairwise.sublist (List.take_sublist _ _)
    (List.sorted_insertionSort keyGe (mergedValues old new))

/-- C6 counterexample: on an id conflict between an existing and an
incoming record with equal `fetched_at`, the last-merged (incoming) record
loses: the merge keeps the existing one. -/
theorem claim_C6_counterexample :
    c6old.id = c6new.id ∧ c6new ≠ c6old ∧
    merge_and_dedupe [c6old] [c6new] = [c6old] := by decide

/-- C6 (amended): the merged collection never contains two records with
the same `id`; among duplicate ids inside the existing collection the last
occurrence wins, while an incoming record displaces an existing one only
under the `fetched_at` recency rule. -/
theorem claim_C6_amended :
    (∀ old new : List Record, ((merge_and_dedupe old new).map Record.id).Nodup) ∧
    (∀ (old : List Record) (e : Record), e.id ≠ "" →
      lookupId (buildById (old ++ [e])) e.id = some e) := by
  constructor
  · intro old new
    have hnd : ((mergedValues old new).map Record.id).Nodup := mergedValues_ids_nodup old new
    have hperm := List.perm_insertionSort keyGe (mergedValues old new)
    have hndS : ((List.insertionSort keyGe (mergedValues old new)).map Record.id).Nodup :=
      ((hperm.map Record.id).nodup_iff).mpr hnd
    rw [merge_and_dedupe, List.map_take]
    exact List.Nodup.sublist (List.take_sublist _ _) hndS
  · intro old e he
    rw [buildById, List.foldl_append, List.foldl_cons, List.foldl_nil]
    unfold buildStep
    rw [if_neg he]
    exact lookupId_setId_self _ _ _

/-- Witness for C6: the last of two existing records sharing an id is the
one stored. -/
theorem claim_C6_witness :
    (mkRec "a" "d2" "f2").id ≠ "" ∧
    lookupId (buildById ([mkRec "a" "d1" "f1"] ++ [mkRec "a" "d2" "f2"]))
      (mkRec "a" "d2" "f2").id = some (mkRec "a" "d2" "f2") :=
  ⟨by decide, claim_C6_amended.2 [mkRec "a" "d1" "f1"] (mkRec "a" "d2" "f2") (by decide)⟩

/-- C7 counterexample: merging a batch with an intra-batch id conflict into
an empty collection does not implement first-occurrence-wins: the record
with the newer `fetched_at` wins instead. -/
theorem claim_C7_counterexample :
    uniqById [c7a, c7b] = [c7a] ∧
    merge_and_dedupe [] [c7a, c7b] = [c7b] ∧
    c7b ≠ c7a := by decide

/-- C7 (amended): merging a batch whose records carry pairwise distinct
non-empty ids (as the pipeline guarantees after its intra-batch
first-seen dedupe) into an empty collection yields exactly those records,
unmodified, sorted descending by `(date, fetched_at)` and truncated to the
cap; in particular this holds for the output of the intra-batch dedupe of
any run. -/
theorem claim_C7_amended :
    (∀ new : List Record, (∀ e ∈ new, e.id ≠ "") → (new.map Record.id).Nodup →
      merge_and_dedupe [] new = (List.insertionSort keyGe new).take KEEP_MAX) ∧
    (∀ l : List Record,
      merge_and_dedupe [] (uniqById l)
        = (List.insertionSort keyGe (uniqById l)).take KEEP_MAX) := by
  have main : ∀ new : List Record, (∀ e ∈ new, e.id ≠ "") → (new.map Record.id).Nodup →
      merge_and_dedupe [] new = (List.insertionSort keyGe new).take KEEP_MAX := by
    intro new hne hnd
    rw [merge_and_dedupe, mergedValues, mergedById]
    rw [show buildById ([] : List Record) = [] from rfl]
    rw [foldl_mergeStep_of_fresh new [] hne hnd fun _ _ => rfl]
    rw [List.nil_append, map_snd_map_pair]
  refine ⟨main, ?_⟩
  intro l
  have g := goodMap_foldl_uniqStep l [] goodMap_nil
  have h1 : ∀ e ∈ uniqById l, e.id ≠ "" := by
    intro e he
    obtain ⟨p, hp, rfl⟩ := List.mem_map.mp he
    have hgp := g.1 p hp
    rw [hgp.2]
    exact hgp.1
  have h2 : ((uniqById l).map Record.id).Nodup := by
    rw [uniqById, map_id_map_snd fun p hp => (g.1 p hp).2]
    exact g.2
  exact main (uniqById l) h1 h2

/-- Witness for C7: a two-record batch with distinct ids merges into the
empty collection as itself, sorted. -/
theorem claim_C7_witness :
    (∀ e ∈ [mkRec "a" "d1" "f", mkRec "b" "d2" "g"], e.id ≠ "") ∧
    (([mkRec "a" "d1" "f", mkRec "b" "d2" "g"].map Record.id).Nodup) ∧
    merge_and_dedupe [] [mkRec "a" "d1" "f", mkRec "b" "d2" "g"]
      = (List.insertionSort keyGe [mkRec "a" "d1" "f", mkRec "b" "d2" "g"]).take KEEP_MAX :=
  ⟨by decide, by decide,
    claim_C7_amended.1 [mkRec "a" "d1" "f", mkRec "b" "d2" "g"] (by decide) (by decide)⟩

/-- C1 counterexample: a record with an empty `date` whose `fetched_at`
parses exactly to the target date is still excluded by the Date Filter,
although the claim says it must be included. -/
theorem claim_C1_counterexample :
    fromisoDate (pyReplaceZ (mkRec "" "" "2025-10-26T01:02:03Z").fetched_at)
      = some (2025, 10, 26) ∧
    dateFilter (2025, 10, 26) [mkRec "" "" "2025-10-26T01:02:03Z"] = [] := by decide

/-- C1 (amended): a record with an empty `date` is excluded immediately,
without consulting `fetched_at`; the `fetched_at` fallback applies only to
records whose `date` is non-empty but unparsable, and such a record is
included when the date parsed from `fetched_at` equals the target. -/
theorem claim_C1_amended :
    (∀ (target : Nat × Nat × Nat) (l : List Record) (e : Record),
      e.date = "" → e ∉ dateFilter target l) ∧
    (∀ (target : Nat × Nat × Nat) (l : List Record) (e : Record), e ∈ l → e.date ≠ "" →
      fromisoDate e.date = none → fromisoDate (pyReplaceZ e.fetched_at) = some target →
      e ∈ dateFilter target l) := by
  constructor
  · intro target l e hd hmem
    have hp := (List.mem_filter.mp hmem).2
    unfold keepForDate at hp
    rw [if_pos hd] at hp
    cases hp
  · intro target l e hl hd hpd hpf
    refine List.mem_filter.mpr ⟨hl, ?_⟩
    unfold keepForDate
    rw [if_neg hd, hpd, hpf]
    simp

/-- Witness for C1: an empty-`date` record is dropped; a record with an
unparsable non-empty `date` is recovered through `fetched_at`. -/
theorem claim_C1_witness :
    (mkRec "" "" "t" ∉ dateFilter (2025, 10, 26) [mkRec "" "" "t"]) ∧
    (mkRec "" "junk" "2025-10-26T01:02:03Z" ∈
      dateFilter (2025, 10, 26) [mkRec "" "junk" "2025-10-26T01:02:03Z"]) :=
  ⟨claim_C1_amended.1 (2025, 10, 26) _ _ rfl,
    claim_C1_amended.2 (2025, 10, 26) _ _ (by decide) (by decide) (by decide) (by decide)⟩

/-- C2 counterexample: with 601 merged records the cap truncates one away,
and re-merging the same unchanged batch resurrects its record under a
fresh insertion, so the second merge differs from the first. -/
theorem claim_C2_counterexample :
    merge_and_dedupe (merge_and_dedupe exOld exNew) exNew ≠ merge_and_dedupe exOld exNew := by
  rw [ex_first_merge, ex_second_merge]
  intro h
  have hmem : mkRec "x" "c" "5" ∈ exFillers := by
    rw [← h]
    exact List.mem_cons_self _ _
  rw [exFillers] at hmem
  obtain ⟨n, _, hn⟩ := List.mem_map.mp hmem
  have hd : ("b" : String) = "c" := congrArg Record.date hn
  exact absurd hd (by decide)

/-- C2 (amended): the merge is idempotent whenever the merged set fits
within the retention cap (no truncation): re-merging the unchanged batch
returns the same collection field-for-field. -/
theorem claim_C2_amended (old new : List Record)
    (h : (mergedValues old new).length ≤ KEEP_MAX) :
    merge_and_dedupe (merge_and_dedupe old new) new = merge_and_dedupe old new := by
  have hlen : (List.insertionSort keyGe (mergedValues old new)).length ≤ KEEP_MAX := by
    rw [List.length_insertionSort]
    exact h
  have hS : merge_and_dedupe old new = List.insertionSort keyGe (mergedValues old new) := by
    rw [merge_and_dedupe]
    exact List.take_of_length_le hlen
  have hvals : mergedValues (List.insertionSort keyGe (mergedValues old new)) new
      = List.insertionSort keyGe (mergedValues old new) :=
    remerge_values old new _ (List.perm_insertionSort keyGe _)
  have hsorted : List.Sorted keyGe (List.insertionSort keyGe (mergedValues old new)) :=
    List.sorted_insertionSort keyGe _
  rw [hS, merge_and_dedupe, hvals, hsorted.insertionSort_eq]
  exact List.take_of_length_le hlen

/-- Witness for C2: a small merge with no truncation is idempotent. -/
theorem claim_C2_witness :
    (mergedValues [] [mkRec "a" "d" "f"]).length ≤ KEEP_MAX ∧
    merge_and_dedupe (merge_and_dedupe [] [mkRec "a" "d" "f"]) [mkRec "a" "d" "f"]
      = merge_and_dedupe [] [mkRec "a" "d" "f"] :=
  ⟨by decide, claim_C2_amended [] [mkRec "a" "d" "f"] (by decide)⟩

/-- C8: tag extraction emits, for each category code in order, the code
and then the part after its last dot, deduplicates preserving first-seen
order — so the output never contains duplicates — and on the category list
`["cs.CL", "cs.AI"]` produces exactly `["cs.CL", "CL", "cs.AI", "AI"]`. -/
theorem claim_C8 :
    (∀ cats : List String, (extractTags cats).Nodup) ∧
    extractTags ["cs.CL", "cs.AI"] = ["cs.CL", "CL", "cs.AI", "AI"] := by
  constructor
  · intro cats
    show ((rawTags cats).foldl dedupeStep ([], [])).2.Nodup
    exact foldl_dedupeStep_nodup (rawTags cats) ([], []) (by simp) (by simp)
  · decide

/-- C9: loading the store returns the empty collection, without raising,
when the file is absent and when its contents cannot be read or
deserialized; `load_existing` is total, so it never fails the run. -/
theorem claim_C9 :
    load_existing StoreFile.absent = [] ∧ load_existing StoreFile.unreadable = [] :=
  ⟨rfl, rfl⟩

/-- C10: the merge never constructs or mutates records: every record of
the merged collection is field-for-field one of the existing or incoming
records. -/
theorem claim_C10 (old new : List Record) (r : Record)
    (h : r ∈ merge_and_dedupe old new) : r ∈ old ∨ r ∈ new := by
  rw [merge_and_dedupe] at h
  have h1 : r ∈ List.insertionSort keyGe (mergedValues old new) :=
    (List.take_sublist _ _).subset h
  have h2 : r ∈ mergedValues old new :=
    (List.perm_insertionSort keyGe (mergedValues old new)).subset h1
  obtain ⟨p, hp, rfl⟩ := List.mem_map.mp h2
  rcases foldl_mergeStep_sub new (buildById old) hp with hp' | hp'
  · rcases foldl_buildStep_sub old [] hp' with h'' | h''
    · cases h''
    · exact .inl h''
  · exact .inr hp'

/-- Witness for C10: a record of a concrete merge output is one of the
inputs. -/
theorem claim_C10_witness :
    mkRec "a" "d" "f" ∈ merge_and_dedupe [] [mkRec "a" "d" "f"] ∧
    (mkRec "a" "d" "f" ∈ ([] : List Record) ∨ mkRec "a" "d" "f" ∈ [mkRec "a" "d" "f"]) :=
  ⟨by decide, claim_C10 [] [mkRec "a" "d" "f"] (mkRec "a" "d" "f") (by decide)⟩

end ArxivFeed
